import Mathlib

/-!
Shallow embedding of the hybrid MCQ region-text-extraction engine
(src/lib/ocr-utils.ts and src/lib/pdf-utils.ts).

Modelling conventions:
* JS strings are Lean `String`s; character-level rewriting is done on
  `List Char` (`String.data`) and wrapped back with `String.mk`.
* JS numbers (recognition confidences, coordinates) are modelled as exact
  rationals `ℚ`.  The two length-ratio float comparisons
  `a > b * 0.8` and `a > b * 1.5` are modelled with the exact rationals
  4/5 and 3/2; on natural-number string lengths below 2^50 the IEEE-double
  comparison and the exact rational comparison agree (1.5 is exact in
  binary, and 0.8·n rounds within 2^-50 of 4n/5, never crossing an
  integer threshold), so this is faithful.
* Each `String.prototype.replace(regex, repl)` call with a global regex is
  embedded as a left-to-right scanner over `List Char` implementing the
  leftmost-match semantics of the JS regex engine for that particular
  pattern (all patterns used here are deterministic: greediness never
  requires backtracking across alternatives).
* A throwing recognition call is modelled as `Option.none` at the point
  where the source wraps the call in try/catch.
-/

namespace MCQApp

/-- JS regex `\s` restricted to the ASCII whitespace the app encounters. -/
def isWs (c : Char) : Bool :=
  c = ' ' || c = '\t' || c = '\n' || c = '\r' || c = '\x0b' || c = '\x0c'

/-- JS regex `\w` = `[A-Za-z0-9_]`. -/
def isWordChar (c : Char) : Bool :=
  c.isAlpha || c.isDigit || c = '_'

/-- Scanner for `.replace(/\s+/g, ' ')` (ocr-utils.ts line 70).
The Boolean state records whether we are inside a whitespace run. -/
def colGo : Bool → List Char → List Char
  | _, [] => []
  | inWs, c :: rest =>
    if isWs c then
      (if inWs then colGo true rest else ' ' :: colGo true rest)
    else c :: colGo false rest

/-- `.dropWhile` of leading whitespace, as in one side of JS `.trim()`. -/
def dropWsL (l : List Char) : List Char := l.dropWhile (fun c => isWs c)

/-- Remove trailing whitespace. -/
def jsTrimRight (l : List Char) : List Char :=
  (l.reverse.dropWhile (fun c => isWs c)).reverse

/-- JS `String.prototype.trim()`: drop whitespace from both ends. -/
def jsTrimChars (l : List Char) : List Char := dropWsL (jsTrimRight l)

/-- Scanner state for `.replace(/(\d+)\s*\.\s*([A-Z])/g, '$1. $2')`
(ocr-utils.ts line 72).  The accumulators store the pending partial match
(in input order) so it can be flushed verbatim when the match fails. -/
inductive NumSt
  | idle
  | digits (ds : List Char)
  | gap (ds ws : List Char)
  | dot (ds ws1 ws2 : List Char)

/-- Text emitted for a pending partial numbering match at end of input. -/
def numFlush : NumSt → List Char
  | .idle => []
  | .digits ds => ds
  | .gap ds ws => ds ++ ws
  | .dot ds ws1 ws2 => ds ++ ws1 ++ ['.'] ++ ws2

/-- Transition from the idle state on one character. -/
def numIdle (c : Char) : List Char × NumSt :=
  if c.isDigit then ([], .digits [c]) else ([c], .idle)

/-- Scanner for the question-numbering regex.  On failure the pending
characters are flushed and scanning resumes at the failing character,
which matches JS leftmost-match semantics because no match of this
pattern can start strictly inside a flushed partial match. -/
def numGo : NumSt → List Char → List Char
  | st, [] => numFlush st
  | .idle, c :: rest =>
    (numIdle c).1 ++ numGo (numIdle c).2 rest
  | .digits ds, c :: rest =>
    if c.isDigit then numGo (.digits (ds ++ [c])) rest
    else if isWs c then numGo (.gap ds [c]) rest
    else if c = '.' then numGo (.dot ds [] []) rest
    else ds ++ ((numIdle c).1 ++ numGo (numIdle c).2 rest)
  | .gap ds ws, c :: rest =>
    if isWs c then numGo (.gap ds (ws ++ [c])) rest
    else if c = '.' then numGo (.dot ds ws []) rest
    else (ds ++ ws) ++ ((numIdle c).1 ++ numGo (numIdle c).2 rest)
  | .dot ds ws1 ws2, c :: rest =>
    if isWs c then numGo (.dot ds ws1 (ws2 ++ [c])) rest
    else if c.isUpper then (ds ++ ['.', ' ', c]) ++ numGo .idle rest
    else (ds ++ ws1 ++ ['.'] ++ ws2) ++ ((numIdle c).1 ++ numGo (numIdle c).2 rest)

/-- Scanner state for `.replace(/([a-z])\s*\)\s*/g, '$1) ')`
(ocr-utils.ts line 73). -/
inductive LetSt
  | idle
  | letter (l : Char) (ws : List Char)
  | paren (l : Char)

/-- Pending text for the option-lettering scanner at end of input. -/
def letFlush : LetSt → List Char
  | .idle => []
  | .letter l ws => l :: ws
  | .paren l => [l, ')', ' ']

/-- Transition from the idle state on one character. -/
def letIdle (c : Char) : List Char × LetSt :=
  if c.isLower then ([], .letter c []) else ([c], .idle)

/-- Scanner for the option-lettering regex.  In state `paren` the greedy
trailing `\s*` is being consumed. -/
def letGo : LetSt → List Char → List Char
  | st, [] => letFlush st
  | .idle, c :: rest =>
    (letIdle c).1 ++ letGo (letIdle c).2 rest
  | .letter l ws, c :: rest =>
    if isWs c then letGo (.letter l (ws ++ [c])) rest
    else if c = ')' then letGo (.paren l) rest
    else (l :: ws) ++ ((letIdle c).1 ++ letGo (letIdle c).2 rest)
  | .paren l, c :: rest =>
    if isWs c then letGo (.paren l) rest
    else [l, ')', ' '] ++ ((letIdle c).1 ++ letGo (letIdle c).2 rest)

/-- Scanner for `.replace(/\|\s*/g, 'I')` (ocr-utils.ts line 74).  The
Boolean state is true while the greedy `\s*` after a pipe is consumed. -/
def pipeGo : Bool → List Char → List Char
  | _, [] => []
  | skip, c :: rest =>
    if c = '|' then 'I' :: pipeGo true rest
    else if skip && isWs c then pipeGo true rest
    else c :: pipeGo false rest

/-- `.replace(/0/g, 'O')` (ocr-utils.ts line 75). -/
def subst0 (l : List Char) : List Char :=
  l.map (fun c => if c = '0' then 'O' else c)

/-- `.replace(/5/g, 'S')` (ocr-utils.ts line 76). -/
def subst5 (l : List Char) : List Char :=
  l.map (fun c => if c = '5' then 'S' else c)

/-- Scanner state for `.replace(/\s*\$\s*/g, '$')` (ocr-utils.ts line 78):
`ws` holds pending whitespace that precedes a potential `$`, `after`
consumes the greedy `\s*` following an emitted `$`. -/
inductive DolSt
  | idle
  | ws (acc : List Char)
  | after

/-- Scanner for the inline-math-delimiter spacing regex. -/
def dolGo : DolSt → List Char → List Char
  | .idle, [] => []
  | .ws acc, [] => acc
  | .after, [] => []
  | .idle, c :: rest =>
    if c = '$' then '$' :: dolGo .after rest
    else if isWs c then dolGo (.ws [c]) rest
    else c :: dolGo .idle rest
  | .ws acc, c :: rest =>
    if c = '$' then '$' :: dolGo .after rest
    else if isWs c then dolGo (.ws (acc ++ [c])) rest
    else acc ++ c :: dolGo .idle rest
  | .after, c :: rest =>
    if c = '$' then '$' :: dolGo .after rest
    else if isWs c then dolGo .after rest
    else c :: dolGo .idle rest

/-- Scanner state for `.replace(/\\\s+/g, '\\')` (ocr-utils.ts line 79). -/
inductive BsSt
  | idle
  | afterBs
  | inWs

/-- Scanner for the whitespace-after-backslash regex. -/
def bsGo : BsSt → List Char → List Char
  | _, [] => []
  | .idle, c :: rest =>
    if c = '\\' then '\\' :: bsGo .afterBs rest else c :: bsGo .idle rest
  | .afterBs, c :: rest =>
    if c = '\\' then '\\' :: bsGo .afterBs rest
    else if isWs c then bsGo .inWs rest
    else c :: bsGo .idle rest
  | .inWs, c :: rest =>
    if isWs c then bsGo .inWs rest
    else if c = '\\' then '\\' :: bsGo .afterBs rest
    else c :: bsGo .idle rest

/-- Scanner for `.replace(/[|_]+/g, ' ')` (ocr-utils.ts line 81).  The
Boolean state is true inside a pipe/underscore run. -/
def artGo : Bool → List Char → List Char
  | _, [] => []
  | inRun, c :: rest =>
    if c = '|' || c = '_' then
      (if inRun then artGo true rest else ' ' :: artGo true rest)
    else c :: artGo false rest

/-- The full `cleanOCRText` pipeline on character lists, in source order
(ocr-utils.ts lines 67-83). -/
def cleanChars (l : List Char) : List Char :=
  jsTrimChars <| artGo false <| bsGo .idle <| dolGo .idle <| subst5 <|
    subst0 <| pipeGo false <| letGo .idle <| numGo .idle <| colGo false l

namespace OCRExtractor

/-- `OCRExtractor.cleanOCRText` (ocr-utils.ts lines 67-83). -/
def cleanOCRText (s : String) : String := ⟨cleanChars s.data⟩

end OCRExtractor

/-- Unicode math symbols of regex `[∑∫∞√≤≥≠±÷×∝∈∉⊆⊇∪∩]`
(ocr-utils.ts line 91, same list on line 232). -/
def mathSymbolChars : List Char :=
  ['∑', '∫', '∞', '√', '≤', '≥', '≠', '±', '÷', '×', '∝', '∈', '∉', '⊆', '⊇', '∪', '∩']

/-- Greek letters of regex `[αβγδεζηθικλμνξοπρστυφχψω]`
(ocr-utils.ts line 92, same list on line 233). -/
def greekChars : List Char :=
  ['α', 'β', 'γ', 'δ', 'ε', 'ζ', 'η', 'θ', 'ι', 'κ', 'λ', 'μ', 'ν', 'ξ', 'ο', 'π',
   'ρ', 'σ', 'τ', 'υ', 'φ', 'χ', 'ψ', 'ω']

/-- Does a match of some pattern start at one of the suffixes of `l`?
This is `regex.test` for patterns whose match attempts need no left
context. -/
def anyTail (p : List Char → Bool) (l : List Char) : Bool := l.tails.any p

/-- Match of `/\$[^$]+\$/` starting at the head: a `$`, at least one
non-`$` character, then another `$`. -/
def dollarPairAt : List Char → Bool
  | '$' :: rest =>
    !(rest.takeWhile (fun c => c ≠ '$')).isEmpty &&
      !(rest.dropWhile (fun c => c ≠ '$')).isEmpty
  | _ => false

/-- Match of `/\\[a-zA-Z]+/` starting at the head. -/
def bsCmdAt : List Char → Bool
  | '\\' :: c :: _ => c.isAlpha
  | _ => false

/-- Match of `/\^[\w{}]+/` starting at the head (detectMathContent). -/
def caretAt : List Char → Bool
  | '^' :: c :: _ => isWordChar c || c = '{' || c = '}'
  | _ => false

/-- Match of `/_[\w{}]+/` starting at the head (detectMathContent). -/
def underscoreAt : List Char → Bool
  | '_' :: c :: _ => isWordChar c || c = '{' || c = '}'
  | _ => false

/-- The function-name words of `/\b(sin|cos|tan|log|ln|exp|lim|max|min)\b/i`
(ocr-utils.ts line 93). -/
def funcWords : List (List Char) :=
  [['s', 'i', 'n'], ['c', 'o', 's'], ['t', 'a', 'n'], ['l', 'o', 'g'], ['l', 'n'],
   ['e', 'x', 'p'], ['l', 'i', 'm'], ['m', 'a', 'x'], ['m', 'i', 'n']]

/-- ASCII lower-casing, the effect of the regex `i` flag on `[a-z]` words. -/
def jsToLower (c : Char) : Char :=
  if c.isUpper then Char.ofNat (c.toNat + 32) else c

/-- Case-insensitively consume the word `w` from the front of a list,
returning the remainder on success. -/
def matchWordCI : List Char → List Char → Option (List Char)
  | [], rest => some rest
  | _ :: _, [] => none
  | e :: es, c :: rest => if jsToLower c = e then matchWordCI es rest else none

/-- The right-hand `\b`: the remainder starts with a non-word character
or is empty. -/
def boundaryOK : List Char → Bool
  | [] => true
  | c :: _ => !isWordChar c

/-- Does one of the function words match at the head, ending at a word
boundary? -/
def matchFuncAt (l : List Char) : Bool :=
  funcWords.any fun w =>
    match matchWordCI w l with
    | some rest => boundaryOK rest
    | none => false

/-- Scanner for the function-word pattern.  The Boolean argument records
whether the previous character was a word character (the left `\b`). -/
def funcGo : Bool → List Char → Bool
  | _, [] => false
  | prevW, c :: rest => (!prevW && matchFuncAt (c :: rest)) || funcGo (isWordChar c) rest

/-- `regex.test` for `/\b(sin|cos|tan|log|ln|exp|lim|max|min)\b/i`. -/
def funcWordScan (l : List Char) : Bool := funcGo false l

/-- Negation of `\w`, named so that side conditions can be stated
without lambda binders. -/
def nonWordC (c : Char) : Bool := !isWordChar c

/-- Characters on which none of the rewriting scanners of `cleanOCRText`
can start a match: no digit (numbering fix and the 0→O / 5→S
substitutions), no `)` (lettering fix), no `$`, no backslash, no pipe
and no underscore. -/
def okC (c : Char) : Bool :=
  !(c.isDigit || c = ')' || c = '$' || c = '\\' || c = '|' || c = '_')

/-- Whitespace-normal form, as produced by the whitespace-collapse
scanner: every whitespace character is a plain space and no two
whitespace characters are adjacent. -/
def wsNormal (l : List Char) : Prop :=
  (∀ c ∈ l, isWs c = true → c = ' ') ∧
    l.Chain' fun a b => ¬(isWs a = true ∧ isWs b = true)

namespace OCRExtractor

/-- `OCRExtractor.detectMathContent` (ocr-utils.ts lines 85-97): the
disjunction of the seven patterns, in source order. -/
def detectMathContent (s : String) : Bool :=
  anyTail dollarPairAt s.data || anyTail bsCmdAt s.data || anyTail caretAt s.data ||
    anyTail underscoreAt s.data || s.data.any (fun c => mathSymbolChars.contains c) ||
    s.data.any (fun c => greekChars.contains c) || funcWordScan s.data

/-- `OCRResult` (ocr-utils.ts lines 4-8). -/
structure OCRResult where
  text : String
  confidence : ℚ
  hasLatex : Bool
deriving DecidableEq, Repr

/-- Raw output of `worker.recognize` (`data.text`, `data.confidence`). -/
structure RecognizeData where
  text : String
  confidence : ℚ
deriving DecidableEq, Repr

/-- `OCRExtractor.extractTextFromCanvas` result computation
(ocr-utils.ts lines 47-64).  `none` models the underlying recognition
call throwing, which the source catches on lines 57-64. -/
def extractTextFromCanvas (recognized : Option RecognizeData) : OCRResult :=
  match recognized with
  | some d =>
    { text := cleanOCRText d.text
      confidence := d.confidence
      hasLatex := detectMathContent (cleanOCRText d.text) }
  | none => { text := "", confidence := 0, hasLatex := false }

end OCRExtractor

/-- Match of `/\\[a-zA-Z]+\{[^}]*\}/` starting at the head
(detectLatex only). -/
def bsBraceAt : List Char → Bool
  | '\\' :: rest =>
    !(rest.takeWhile (fun c => c.isAlpha)).isEmpty &&
      (match rest.dropWhile (fun c => c.isAlpha) with
       | '{' :: rest2 => !(rest2.dropWhile (fun c => c ≠ '}')).isEmpty
       | _ => false)
  | _ => false

/-- Match of `/\^[^{\s]+/` starting at the head (detectLatex). -/
def caretLooseAt : List Char → Bool
  | '^' :: c :: _ => !(c = '{' || isWs c)
  | _ => false

/-- Match of `/_[^{\s]+/` starting at the head (detectLatex). -/
def underscoreLooseAt : List Char → Bool
  | '_' :: c :: _ => !(c = '{' || isWs c)
  | _ => false

/-- Match of `/\^{[^}]+}/` starting at the head (detectLatex). -/
def caretBraceAt : List Char → Bool
  | '^' :: '{' :: rest =>
    !(rest.takeWhile (fun c => c ≠ '}')).isEmpty &&
      !(rest.dropWhile (fun c => c ≠ '}')).isEmpty
  | _ => false

/-- Match of `/_{[^}]+}/` starting at the head (detectLatex). -/
def underscoreBraceAt : List Char → Bool
  | '_' :: '{' :: rest =>
    !(rest.takeWhile (fun c => c ≠ '}')).isEmpty &&
      !(rest.dropWhile (fun c => c ≠ '}')).isEmpty
  | _ => false

namespace HybridTextExtractor

open OCRExtractor

/-- `HybridTextExtractor.detectLatex` (ocr-utils.ts lines 223-237):
disjunction of the nine patterns, in source order. -/
def detectLatex (s : String) : Bool :=
  anyTail dollarPairAt s.data || anyTail bsBraceAt s.data || anyTail bsCmdAt s.data ||
    anyTail caretLooseAt s.data || anyTail underscoreLooseAt s.data ||
    anyTail caretBraceAt s.data || anyTail underscoreBraceAt s.data ||
    s.data.any (fun c => mathSymbolChars.contains c) ||
    s.data.any (fun c => greekChars.contains c)

/-- Extraction method tag (`'pdf' | 'ocr' | 'hybrid'`); the spec calls
these `structured`, `recognized` and `hybrid`. -/
inductive Method
  | pdf
  | ocr
  | hybrid
deriving DecidableEq, Repr

/-- Result record of `HybridTextExtractor.extractFromBoundingBox`. -/
structure Outcome where
  text : String
  method : Method
  confidence : ℚ
  hasLatex : Bool
deriving DecidableEq, Repr

/-- `pdfConfidence` as assigned on ocr-utils.ts line 157: 95 when the
structured-layer text is non-empty, 0 otherwise. -/
def structuredConfidence (pdfText : String) : ℚ :=
  if 0 < pdfText.length then 95 else 0

/-- `HybridTextExtractor.combineTextResults` (ocr-utils.ts lines 208-221).
The float factors 0.8 and 1.5 are the exact rationals 4/5 and 3/2; see
the file header for why this agrees with the IEEE comparison. -/
def combineTextResults (pdfText ocrText : String) : String :=
  if (pdfText.length : ℚ) > (ocrText.length : ℚ) * (4 / 5 : ℚ) then pdfText
  else if (ocrText.length : ℚ) > (pdfText.length : ℚ) * (3 / 2 : ℚ) then ocrText
  else pdfText ++ " " ++ ocrText

/-- The fallback outcome built on ocr-utils.ts lines 199-205
(`pdfText || 'Unable to extract text'`, `pdfText ? 'pdf' : 'ocr'`,
`pdfConfidence || 0`). -/
def fallbackOutcome (pdfText : String) : Outcome :=
  { text := if pdfText = "" then "Unable to extract text" else pdfText
    method := if pdfText = "" then .ocr else .pdf
    confidence := if structuredConfidence pdfText = 0 then 0 else structuredConfidence pdfText
    hasLatex := detectLatex pdfText }

/-- Recognition unusable for reconciliation: the recognizer threw, or
its confidence is at most 60 (ocr-utils.ts line 176 not taken). -/
def recognitionUnusable : Option OCRResult → Bool
  | none => true
  | some r => decide (r.confidence ≤ 60)

/-- Decision logic of `HybridTextExtractor.extractFromBoundingBox`
(ocr-utils.ts lines 156-206) after the structured-layer probe has
produced `pdfText`.  `ocr = none` models the recognizer call throwing
(caught on lines 195-197); otherwise `ocr` is the `OCRResult` returned
by `extractTextFromCanvas`. -/
def extractFromBoundingBox (pdfText : String) (ocr : Option OCRResult) : Outcome :=
  if 10 < pdfText.length ∧ 90 < structuredConfidence pdfText then
    { text := pdfText
      method := .pdf
      confidence := structuredConfidence pdfText
      hasLatex := detectLatex pdfText }
  else
    match ocr with
    | some r =>
      if 60 < r.confidence then
        if 0 < pdfText.length ∧ 0 < r.text.length then
          { text := combineTextResults pdfText r.text
            method := .hybrid
            confidence := max (structuredConfidence pdfText) r.confidence
            hasLatex := r.hasLatex || detectLatex pdfText }
        else
          { text := r.text, method := .ocr, confidence := r.confidence, hasLatex := r.hasLatex }
      else fallbackOutcome pdfText
    | none => fallbackOutcome pdfText

end HybridTextExtractor

namespace PdfUtils

/-- A rectangle `{x, y, width, height}` with rational coordinates. -/
structure Bbox where
  x : ℚ
  y : ℚ
  width : ℚ
  height : ℚ
deriving DecidableEq, Repr

/-- One `textContent.items` entry: its string and, when present, the
anchor `(transform[4], transform[5])`. -/
structure TextItem where
  str : String
  transform : Option (ℚ × ℚ)
deriving DecidableEq, Repr

/-- The screen-to-PDF coordinate conversion of pdf-utils.ts lines 59-64
(identical in ocr-utils.ts lines 134-139).  `viewportHeight` is
`page.getViewport({scale}).height`, i.e. native page height times the
render scale. -/
def toPdfBbox (bbox : Bbox) (viewportHeight scale : ℚ) : Bbox :=
  { x := bbox.x / scale
    y := (viewportHeight - bbox.y - bbox.height) / scale
    width := bbox.width / scale
    height := bbox.height / scale }

/-- The containment test of pdf-utils.ts lines 68-78: an item with a
transform is kept iff its anchor lies in the box, all bounds inclusive;
an item without a transform is never kept. -/
def inBbox (pdfBbox : Bbox) (item : TextItem) : Bool :=
  match item.transform with
  | some (x, y) =>
    decide (pdfBbox.x ≤ x) && decide (x ≤ pdfBbox.x + pdfBbox.width) &&
      decide (pdfBbox.y ≤ y) && decide (y ≤ pdfBbox.y + pdfBbox.height)
  | none => false

/-- `extractTextFromBoundingBox` (pdf-utils.ts lines 48-85): append
`item.str + ' '` for each kept item, in order, then `.trim()`. -/
def extractTextFromBoundingBox (items : List TextItem) (bbox : Bbox)
    (viewportHeight scale : ℚ) : String :=
  ⟨jsTrimChars (items.foldl
    (fun acc item =>
      if inBbox (toPdfBbox bbox viewportHeight scale) item then acc ++ item.str.data ++ [' ']
      else acc)
    [])⟩

/-- Space-separated concatenation, one single space between entries. -/
def joinSp : List (List Char) → List Char
  | [] => []
  | [s] => s
  | s :: rest => s ++ ' ' :: joinSp rest

/-- StructuredLayerProbe as worded by the spec (claim C7): the kept
fragments joined by single spaces with only TRAILING whitespace trimmed.
This is the claim-side definition, to be compared with
`extractTextFromBoundingBox`. -/
def probeClaimed (items : List TextItem) (bbox : Bbox)
    (viewportHeight scale : ℚ) : String :=
  ⟨jsTrimRight (joinSp
    ((items.filter (fun item => inBbox (toPdfBbox bbox viewportHeight scale) item)).map
      (fun item => item.str.data)))⟩

end PdfUtils

/-! ## Helper lemmas -/

theorem strLengthPos (s : String) (h : s ≠ "") : 0 < s.length := by
  cases s with
  | mk data =>
    cases data with
    | nil => exact absurd rfl h
    | cons c cs => simp [String.length]

theorem jsTrimRight_append_space (l : List Char) : jsTrimRight (l ++ [' ']) = jsTrimRight l := by
  unfold jsTrimRight
  simp [List.dropWhile_cons, isWs]

theorem jsTrimChars_append_space (l : List Char) : jsTrimChars (l ++ [' ']) = jsTrimChars l := by
  unfold jsTrimChars
  rw [jsTrimRight_append_space]

namespace PdfUtils

theorem flatten_sep_eq_joinSp : ∀ L : List (List Char), L ≠ [] →
    (L.map (fun s => s ++ [' '])).flatten = joinSp L ++ [' ']
  | [s], _ => by simp [joinSp]
  | s :: t :: rest, _ => by
    have ih := flatten_sep_eq_joinSp (t :: rest) (by simp)
    have hj : joinSp (s :: t :: rest) = s ++ ' ' :: joinSp (t :: rest) := rfl
    rw [List.map_cons, List.flatten_cons, ih, hj]
    simp

theorem foldl_sep (p : TextItem → Bool) : ∀ (items : List TextItem) (acc : List Char),
    items.foldl (fun a it => if p it then a ++ it.str.data ++ [' '] else a) acc =
      acc ++ ((items.filter p).map (fun it => it.str.data ++ [' '])).flatten
  | [], acc => by simp
  | it :: items, acc => by
    simp only [List.foldl_cons]
    by_cases h : p it
    · rw [if_pos h, foldl_sep p items, List.filter_cons, if_pos h, List.map_cons,
        List.flatten_cons]
      simp [List.append_assoc]
    · rw [if_neg h, foldl_sep p items, List.filter_cons, if_neg h]

/-- The anchor (0,0) lies inside the unit box mapped at scale 1. -/
theorem inBbox_unit_example : inBbox (toPdfBbox ⟨0, 0, 1, 1⟩ 1 1) ⟨" a", some (0, 0)⟩ = true := by
  norm_num [inBbox, toPdfBbox]

end PdfUtils

theorem funcWords_ne_nil : ∀ w ∈ funcWords, w ≠ [] := by decide

theorem matchWordCI_complete (post : List Char) :
    ∀ (mid : List Char), matchWordCI (mid.map jsToLower) (mid ++ post) = some post
  | [] => rfl
  | c :: m => by
    simp only [List.map_cons, List.cons_append, matchWordCI, if_pos rfl]
    exact matchWordCI_complete post m

theorem matchFuncAt_complete (mid post w : List Char) (hw : w ∈ funcWords)
    (hmap : mid.map jsToLower = w)
    (hpost : post.head?.all nonWordC = true) :
    matchFuncAt (mid ++ post) = true := by
  unfold matchFuncAt
  rw [List.any_eq_true]
  refine ⟨w, hw, ?_⟩
  rw [← hmap, matchWordCI_complete post mid]
  cases post with
  | nil => rfl
  | cons d rest =>
    simp only [Option.all, List.head?] at hpost
    simpa [boundaryOK, nonWordC] using hpost

theorem funcGo_complete :
    ∀ (pre : List Char) (prevW : Bool) (mid post w : List Char), w ∈ funcWords →
    mid.map jsToLower = w →
    (pre = [] → prevW = false) →
    (∀ c, pre.getLast? = some c → isWordChar c = false) →
    post.head?.all nonWordC = true →
    funcGo prevW (pre ++ (mid ++ post)) = true
  | [], prevW, mid, post, w, hw, hmap, hpre0, _, hpost => by
    have hprev : prevW = false := hpre0 rfl
    subst hprev
    have hne : mid ≠ [] := by
      intro h
      rw [h] at hmap
      exact funcWords_ne_nil w hw hmap.symm
    cases mid with
    | nil => exact absurd rfl hne
    | cons c m =>
      have hm : matchFuncAt ((c :: m) ++ post) = true :=
        matchFuncAt_complete (c :: m) post w hw hmap hpost
      simp only [List.nil_append, List.cons_append] at hm ⊢
      unfold funcGo
      rw [hm]
      simp
  | c :: pre', prevW, mid, post, w, hw, hmap, _, hlast, hpost => by
    have ih := funcGo_complete pre' (isWordChar c) mid post w hw hmap
      (fun h => by
        subst h
        exact hlast c rfl)
      (fun d hd => hlast d (by
        cases pre' with
        | nil => exact absurd hd (by simp)
        | cons e pre'' => rw [List.getLast?_cons_cons]; exact hd))
      hpost
    simp only [List.cons_append]
    unfold funcGo
    rw [ih]
    simp

theorem numGo_id (l : List Char) (h : ∀ c ∈ l, c.isDigit = false) :
    numGo .idle l = l := by
  induction l with
  | nil => rfl
  | cons c rest ih =>
    have hc : c.isDigit = false := h c (by simp)
    show (numIdle c).1 ++ numGo (numIdle c).2 rest = c :: rest
    rw [numIdle, if_neg (by simp [hc])]
    simpa using ih fun d hd => h d (by simp [hd])

theorem letGo_id_aux (l : List Char) (h : ∀ c ∈ l, ¬c = ')') :
    letGo .idle l = l ∧ ∀ a ws, letGo (.letter a ws) l = a :: (ws ++ l) := by
  induction l with
  | nil =>
    refine ⟨rfl, fun a ws => ?_⟩
    show letFlush _ = _
    simp [letFlush]
  | cons c rest ih =>
    have hc : ¬c = ')' := h c (by simp)
    have ih' := ih fun d hd => h d (by simp [hd])
    have hidle : (letIdle c).1 ++ letGo (letIdle c).2 rest = c :: rest := by
      rw [letIdle]
      by_cases hl : c.isLower
      · rw [if_pos hl]
        simpa using (ih'.2 c [])
      · rw [if_neg hl]
        simpa using ih'.1
    constructor
    · exact hidle
    · intro a ws
      show (if isWs c then letGo (.letter a (ws ++ [c])) rest
        else if c = ')' then letGo (.paren a) rest
        else (a :: ws) ++ ((letIdle c).1 ++ letGo (letIdle c).2 rest)) = _
      by_cases hw : isWs c
      · rw [if_pos hw, ih'.2 a (ws ++ [c])]
        simp
      · rw [if_neg hw, if_neg hc, hidle]
        simp

theorem pipeGo_id (l : List Char) (h : ∀ c ∈ l, ¬c = '|') : pipeGo false l = l := by
  induction l with
  | nil => rfl
  | cons c rest ih =>
    show (if c = '|' then _ else if false && isWs c then _ else c :: pipeGo false rest) = _
    rw [if_neg (h c (by simp))]
    simpa using ih fun d hd => h d (by simp [hd])

theorem subst0_id (l : List Char) (h : ∀ c ∈ l, ¬c = '0') : subst0 l = l := by
  induction l with
  | nil => rfl
  | cons c rest ih =>
    show (if c = '0' then 'O' else c) :: subst0 rest = c :: rest
    rw [if_neg (h c (by simp)), ih fun d hd => h d (by simp [hd])]

theorem subst5_id (l : List Char) (h : ∀ c ∈ l, ¬c = '5') : subst5 l = l := by
  induction l with
  | nil => rfl
  | cons c rest ih =>
    show (if c = '5' then 'S' else c) :: subst5 rest = c :: rest
    rw [if_neg (h c (by simp)), ih fun d hd => h d (by simp [hd])]

theorem dolGo_id_aux (l : List Char) (h : ∀ c ∈ l, ¬c = '$') :
    dolGo .idle l = l ∧ ∀ acc, dolGo (.ws acc) l = acc ++ l := by
  induction l with
  | nil => exact ⟨rfl, fun acc => by simp [dolGo]⟩
  | cons c rest ih =>
    have hc : ¬c = '$' := h c (by simp)
    have ih' := ih fun d hd => h d (by simp [hd])
    constructor
    · show (if c = '$' then _ else if isWs c then dolGo (.ws [c]) rest
        else c :: dolGo .idle rest) = _
      by_cases hw : isWs c
      · rw [if_neg hc, if_pos hw, ih'.2 [c]]
        rfl
      · rw [if_neg hc, if_neg hw, ih'.1]
    · intro acc
      show (if c = '$' then _ else if isWs c then dolGo (.ws (acc ++ [c])) rest
        else acc ++ c :: dolGo .idle rest) = _
      by_cases hw : isWs c
      · rw [if_neg hc, if_pos hw, ih'.2 (acc ++ [c])]
        simp
      · rw [if_neg hc, if_neg hw, ih'.1]

theorem bsGo_id (l : List Char) (h : ∀ c ∈ l, ¬c = '\\') : bsGo .idle l = l := by
  induction l with
  | nil => rfl
  | cons c rest ih =>
    show (if c = '\\' then _ else c :: bsGo .idle rest) = _
    rw [if_neg (h c (by simp))]
    simpa using ih fun d hd => h d (by simp [hd])

theorem artGo_id (l : List Char) (h : ∀ c ∈ l, ¬c = '|' ∧ ¬c = '_') :
    ∀ b, artGo b l = l := by
  induction l with
  | nil => intro b; rfl
  | cons c rest ih =>
    intro b
    have hc := h c (by simp)
    show (if c = '|' || c = '_' then _ else c :: artGo false rest) = _
    rw [if_neg (by simp [hc.1, hc.2])]
    rw [ih (fun d hd => h d (by simp [hd])) false]

theorem colGo_allSpace (l : List Char) :
    ∀ b, ∀ c ∈ colGo b l, isWs c = true → c = ' ' := by
  induction l with
  | nil => intro b c hc; simp [colGo] at hc
  | cons d rest ih =>
    intro b c hc hws
    by_cases hd : isWs d
    · by_cases hb : b
      · subst hb
        rw [show colGo true (d :: rest) = colGo true rest by rw [colGo, if_pos hd]; rfl] at hc
        exact ih true c hc hws
      · rw [show b = false by simpa using hb] at hc
        rw [show colGo false (d :: rest) = ' ' :: colGo true rest by
          rw [colGo, if_pos hd]; rfl] at hc
        rcases List.mem_cons.mp hc with h1 | h1
        · exact h1
        · exact ih true c h1 hws
    · rw [show colGo b (d :: rest) = d :: colGo false rest by
        rw [colGo, if_neg hd]] at hc
      rcases List.mem_cons.mp hc with h1 | h1
      · subst h1; exact absurd hws (by simpa using hd)
      · exact ih false c h1 hws

theorem colGo_head_true (l : List Char) :
    ∀ c, (colGo true l).head? = some c → isWs c = false := by
  induction l with
  | nil => intro c hc; simp [colGo] at hc
  | cons d rest ih =>
    intro c hc
    by_cases hd : isWs d
    · rw [show colGo true (d :: rest) = colGo true rest by rw [colGo, if_pos hd]; rfl] at hc
      exact ih c hc
    · rw [show colGo true (d :: rest) = d :: colGo false rest by rw [colGo, if_neg hd]] at hc
      simp only [List.head?_cons, Option.some.injEq] at hc
      subst hc
      simpa using hd

theorem colGo_chain (l : List Char) :
    ∀ b, (colGo b l).Chain' fun a b => ¬(isWs a = true ∧ isWs b = true) := by
  induction l with
  | nil => intro b; simp [colGo]
  | cons d rest ih =>
    intro b
    by_cases hd : isWs d
    · by_cases hb : b
      · subst hb
        rw [show colGo true (d :: rest) = colGo true rest by rw [colGo, if_pos hd]; rfl]
        exact ih true
      · rw [show b = false by simpa using hb]
        rw [show colGo false (d :: rest) = ' ' :: colGo true rest by rw [colGo, if_pos hd]; rfl]
        rw [List.chain'_cons']
        refine ⟨fun y hy => ?_, ih true⟩
        have := colGo_head_true rest y hy
        simp [this]
    · rw [show colGo b (d :: rest) = d :: colGo false rest by rw [colGo, if_neg hd]]
      rw [List.chain'_cons']
      refine ⟨fun y hy => ?_, ih false⟩
      simp [show isWs d = false by simpa using hd]

theorem colGo_wsNormal (l : List Char) : wsNormal (colGo false l) :=
  ⟨colGo_allSpace l false, colGo_chain l false⟩

theorem colGo_mem (l : List Char) :
    ∀ b, ∀ c ∈ colGo b l, c = ' ' ∨ c ∈ l := by
  induction l with
  | nil => intro b c hc; simp [colGo] at hc
  | cons d rest ih =>
    intro b c hc
    by_cases hd : isWs d
    · by_cases hb : b
      · subst hb
        rw [show colGo true (d :: rest) = colGo true rest by rw [colGo, if_pos hd]; rfl] at hc
        rcases ih true c hc with h | h
        · exact Or.inl h
        · exact Or.inr (by simp [h])
      · rw [show b = false by simpa using hb] at hc
        rw [show colGo false (d :: rest) = ' ' :: colGo true rest by
          rw [colGo, if_pos hd]; rfl] at hc
        rcases List.mem_cons.mp hc with h | h
        · exact Or.inl h
        · rcases ih true c h with h1 | h1
          · exact Or.inl h1
          · exact Or.inr (by simp [h1])
    · rw [show colGo b (d :: rest) = d :: colGo false rest by rw [colGo, if_neg hd]] at hc
      rcases List.mem_cons.mp hc with h | h
      · exact Or.inr (by simp [h])
      · rcases ih false c h with h1 | h1
        · exact Or.inl h1
        · exact Or.inr (by simp [h1])

theorem colGo_id (l : List Char) (hn : wsNormal l) : colGo false l = l := by
  obtain ⟨hsp, hch⟩ := hn
  induction l with
  | nil => rfl
  | cons c rest ih =>
    by_cases hw : isWs c
    · rw [show colGo false (c :: rest) = ' ' :: colGo true rest by rw [colGo, if_pos hw]; rfl]
      have hc : c = ' ' := hsp c (by simp) (by simpa using hw)
      subst hc
      have htl : colGo true rest = rest := by
        cases rest with
        | nil => rfl
        | cons e rest' =>
          have hrel := (List.chain'_cons'.mp hch).1 e (by simp)
          have hwe : isWs e = false := by
            by_cases h : isWs e
            · exact absurd ⟨by simpa using hw, by simpa using h⟩ hrel
            · simpa using h
          rw [show colGo true (e :: rest') = e :: colGo false rest' by
            rw [colGo, if_neg (by simp [hwe])]]
          have := ih (fun d hd hws => hsp d (by simp [hd]) hws) (List.Chain'.tail hch)
          rw [show colGo false (e :: rest') = e :: colGo false rest' by
            rw [colGo, if_neg (by simp [hwe])]] at this
          exact this
      rw [htl]
    · rw [show colGo false (c :: rest) = c :: colGo false rest by rw [colGo, if_neg hw]]
      rw [ih (fun d hd hws => hsp d (by simp [hd]) hws) (List.Chain'.tail hch)]

theorem dropWhile_head_not (p : Char → Bool) (l : List Char) :
    ∀ c, (l.dropWhile p).head? = some c → p c = false := by
  induction l with
  | nil => intro c hc; simp at hc
  | cons d rest ih =>
    intro c hc
    rw [List.dropWhile_cons] at hc
    by_cases hd : p d
    · rw [if_pos (by simpa using hd)] at hc
      exact ih c hc
    · rw [if_neg (by simpa using hd)] at hc
      simp only [List.head?_cons, Option.some.injEq] at hc
      subst hc
      simpa using hd

theorem chain'_dropWhile {R : Char → Char → Prop} (p : Char → Bool) (l : List Char)
    (h : l.Chain' R) : (l.dropWhile p).Chain' R := by
  induction l with
  | nil => exact h
  | cons d rest ih =>
    rw [List.dropWhile_cons]
    by_cases hd : p d
    · rw [if_pos (by simpa using hd)]
      exact ih (List.Chain'.tail h)
    · rw [if_neg (by simpa using hd)]
      exact h

theorem mem_dropWhile (p : Char → Bool) (l : List Char) :
    ∀ c ∈ l.dropWhile p, c ∈ l := by
  intro c hc
  exact (List.dropWhile_sublist p (l := l)).subset hc

theorem wsNormal_reverse (l : List Char) (h : wsNormal l) : wsNormal l.reverse := by
  obtain ⟨hsp, hch⟩ := h
  refine ⟨fun c hc => hsp c (by simpa using hc), ?_⟩
  rw [List.chain'_reverse]
  refine List.Chain'.imp ?_ hch
  intro a b hab hc
  exact hab ⟨hc.2, hc.1⟩

theorem wsNormal_dropWhile (p : Char → Bool) (l : List Char) (h : wsNormal l) :
    wsNormal (l.dropWhile p) := by
  obtain ⟨hsp, hch⟩ := h
  exact ⟨fun c hc => hsp c (mem_dropWhile p l c hc), chain'_dropWhile p l hch⟩

theorem wsNormal_jsTrim (l : List Char) (h : wsNormal l) : wsNormal (jsTrimChars l) := by
  unfold jsTrimChars jsTrimRight dropWsL
  exact wsNormal_dropWhile _ _ (wsNormal_reverse _ (wsNormal_dropWhile _ _ (wsNormal_reverse l h)))

theorem jsTrim_mem (l : List Char) : ∀ c ∈ jsTrimChars l, c ∈ l := by
  intro c hc
  unfold jsTrimChars jsTrimRight dropWsL at hc
  have h1 := mem_dropWhile _ _ c hc
  rw [List.mem_reverse] at h1
  have h2 := mem_dropWhile _ _ c h1
  rw [List.mem_reverse] at h2
  exact h2

theorem jsTrim_head (l : List Char) :
    ∀ c, (jsTrimChars l).head? = some c → isWs c = false := by
  intro c hc
  unfold jsTrimChars dropWsL at hc
  exact dropWhile_head_not _ _ c hc

theorem getLast?_of_suffix {l m : List Char} (h : m <:+ l) (hne : m ≠ []) :
    l.getLast? = m.getLast? := by
  obtain ⟨u, hu⟩ := h
  subst hu
  exact List.getLast?_append_of_ne_nil _ hne

theorem jsTrim_last (l : List Char) :
    ∀ c, (jsTrimChars l).getLast? = some c → isWs c = false := by
  intro c hc
  unfold jsTrimChars dropWsL at hc
  by_cases hne : ((jsTrimRight l).dropWhile fun c => isWs c) = []
  · rw [hne] at hc; simp at hc
  · have hsuf : ((jsTrimRight l).dropWhile fun c => isWs c) <:+ jsTrimRight l :=
      List.dropWhile_suffix _
    rw [← getLast?_of_suffix hsuf hne] at hc
    unfold jsTrimRight at hc
    rw [List.getLast?_reverse] at hc
    exact dropWhile_head_not _ _ c hc

theorem dropWhile_eq_self_of_head (p : Char → Bool) (l : List Char)
    (h : ∀ c, l.head? = some c → p c = false) : l.dropWhile p = l := by
  cases l with
  | nil => rfl
  | cons d rest =>
    rw [List.dropWhile_cons, if_neg (by simp [h d rfl])]

theorem trim_id (l : List Char)
    (hh : ∀ c, l.head? = some c → isWs c = false)
    (hl : ∀ c, l.getLast? = some c → isWs c = false) :
    jsTrimChars l = l := by
  unfold jsTrimChars jsTrimRight dropWsL
  rw [dropWhile_eq_self_of_head _ l.reverse (fun c hc =>
    hl c (by rwa [List.head?_reverse] at hc))]
  rw [List.reverse_reverse]
  exact dropWhile_eq_self_of_head _ _ hh

theorem okC_spec (c : Char) (h : okC c = true) :
    c.isDigit = false ∧ ¬c = ')' ∧ ¬c = '$' ∧ ¬c = '\\' ∧ ¬c = '|' ∧ ¬c = '_' := by
  simp only [okC, Bool.not_eq_eq_eq_not, Bool.not_true, Bool.or_eq_false_iff,
    decide_eq_false_iff_not] at h
  exact ⟨h.1.1.1.1.1, h.1.1.1.1.2, h.1.1.1.2, h.1.1.2, h.1.2, h.2⟩

theorem cleanChars_restricted (l : List Char) (h : ∀ c ∈ l, okC c = true) :
    cleanChars l = jsTrimChars (colGo false l) := by
  have hok : ∀ c ∈ colGo false l, okC c = true := by
    intro c hc
    rcases colGo_mem l false c hc with h1 | h1
    · subst h1; decide
    · exact h c h1
  unfold cleanChars
  rw [numGo_id _ fun c hc => (okC_spec c (hok c hc)).1]
  rw [(letGo_id_aux _ fun c hc => (okC_spec c (hok c hc)).2.1).1]
  rw [pipeGo_id _ fun c hc => (okC_spec c (hok c hc)).2.2.2.2.1]
  rw [subst0_id _ fun c hc he => by
    have := (okC_spec c (hok c hc)).1
    rw [he] at this
    exact absurd this (by decide)]
  rw [subst5_id _ fun c hc he => by
    have := (okC_spec c (hok c hc)).1
    rw [he] at this
    exact absurd this (by decide)]
  rw [(dolGo_id_aux _ fun c hc => (okC_spec c (hok c hc)).2.2.1).1]
  rw [bsGo_id _ fun c hc => (okC_spec c (hok c hc)).2.2.2.1]
  rw [artGo_id _ (fun c hc =>
    ⟨(okC_spec c (hok c hc)).2.2.2.2.1, (okC_spec c (hok c hc)).2.2.2.2.2⟩) false]

/-! ## Claim theorems -/

open OCRExtractor HybridTextExtractor PdfUtils

/-- C1: merge rule of the Combination Heuristic.  For every structured
text of length at most 10 and recognition result with confidence above
60 where both texts are non-empty, the outcome text is the structured
text alone when its length exceeds 0.8 times the recognized length,
else the recognized text alone when its length exceeds 1.5 times the
structured length, else the space-separated concatenation; in all three
cases the method is hybrid and the confidence is the maximum of the
structured-layer confidence (95) and the recognizer confidence. -/
theorem C1_merge_rule (p : String) (r : OCRResult) (hlen : p.length ≤ 10)
    (hp : p ≠ "") (hr : r.text ≠ "") (hc : 60 < r.confidence) :
    extractFromBoundingBox p (some r) =
      { text :=
          if (p.length : ℚ) > (r.text.length : ℚ) * (4 / 5 : ℚ) then p
          else if (r.text.length : ℚ) > (p.length : ℚ) * (3 / 2 : ℚ) then r.text
          else p ++ " " ++ r.text
        method := .hybrid
        confidence := max 95 r.confidence
        hasLatex := r.hasLatex || detectLatex p } := by
  have h0 : 0 < p.length := strLengthPos p hp
  have h1 : 0 < r.text.length := strLengthPos r.text hr
  have hsc : structuredConfidence p = 95 := if_pos h0
  unfold extractFromBoundingBox
  rw [hsc, if_neg (fun h => by omega)]
  dsimp only
  rw [if_pos hc, if_pos ⟨h0, h1⟩]
  unfold combineTextResults
  rfl

/-- C1 witness: structured text "ab" and recognized "cde" at confidence
70 land in the concatenation branch with method hybrid, confidence 95. -/
theorem C1_merge_rule_witness :
    ("ab" : String).length ≤ 10 ∧ ("ab" : String) ≠ "" ∧ ("cde" : String) ≠ "" ∧
      (60 : ℚ) < 70 ∧
      extractFromBoundingBox "ab" (some ⟨"cde", 70, false⟩) =
        { text :=
            if (("ab" : String).length : ℚ) > (("cde" : String).length : ℚ) * (4 / 5 : ℚ)
            then "ab"
            else if (("cde" : String).length : ℚ) > (("ab" : String).length : ℚ) * (3 / 2 : ℚ)
            then "cde"
            else "ab" ++ " " ++ "cde"
          method := .hybrid
          confidence := max 95 70
          hasLatex := false || detectLatex "ab" } :=
  ⟨by decide, by decide, by decide, by norm_num,
    C1_merge_rule "ab" ⟨"cde", 70, false⟩ (by decide) (by decide) (by decide) (by norm_num)⟩

/-- C2: short-circuit.  For every structured text of length 11 or more,
the outcome is that text with method structured and confidence 95,
independently of the recognizer argument (so anything the recognizer
would return is irrelevant). -/
theorem C2_short_circuit (p : String) (ocr : Option OCRResult) (h : 11 ≤ p.length) :
    extractFromBoundingBox p ocr = ⟨p, .pdf, 95, detectLatex p⟩ := by
  have h0 : 0 < p.length := by omega
  have hc : structuredConfidence p = 95 := if_pos h0
  unfold extractFromBoundingBox
  rw [hc, if_pos ⟨by omega, by norm_num⟩]

/-- C2 witness: an 11-character structured text short-circuits even
against a high-confidence recognizer result. -/
theorem C2_short_circuit_witness :
    11 ≤ ("abcdefghijk" : String).length ∧
      extractFromBoundingBox "abcdefghijk" (some ⟨"zz", 99, true⟩) =
        ⟨"abcdefghijk", .pdf, 95, detectLatex "abcdefghijk"⟩ :=
  ⟨by decide, C2_short_circuit "abcdefghijk" (some ⟨"zz", 99, true⟩) (by decide)⟩

/-- C3 counterexample: with structured text "x^2" (length 3) and a
recognition result of confidence 50, the outcome is NOT
{x^2, structured, 0, false} as the claim states: the code returns
confidence 95 (line 203 evaluates pdfConfidence || 0 with
pdfConfidence = 95) and hasMath = true. -/
theorem C3_fallback_counterexample :
    extractFromBoundingBox "x^2" (some ⟨"q", 50, false⟩) ≠
      ⟨"x^2", .pdf, 0, false⟩ := by
  decide

/-- C3 amended: for non-empty structured text of length at most 10 whose
recognition failed or had confidence at most 60, the outcome is the
structured text with method structured, confidence 95 (the structured-
layer confidence, not 0) and hasMath the math-detection of the
structured text (not constant false). -/
theorem C3_fallback_amended (p : String) (ocr : Option OCRResult)
    (hp : p ≠ "") (hlen : p.length ≤ 10)
    (hun : recognitionUnusable ocr = true) :
    extractFromBoundingBox p ocr = ⟨p, .pdf, 95, detectLatex p⟩ := by
  have h0 : 0 < p.length := strLengthPos p hp
  have hsc : structuredConfidence p = 95 := if_pos h0
  have hfb : fallbackOutcome p = ⟨p, .pdf, 95, detectLatex p⟩ := by
    unfold fallbackOutcome
    rw [hsc, if_neg hp, if_neg hp, if_neg (by norm_num)]
  unfold extractFromBoundingBox
  rw [hsc, if_neg (fun h => by omega)]
  cases ocr with
  | none => exact hfb
  | some r =>
    have hle : r.confidence ≤ 60 := of_decide_eq_true hun
    dsimp only
    rw [if_neg (not_lt.mpr hle)]
    exact hfb

/-- C3 witness: structured "abc" with a confidence-50 recognition falls
back to the structured text at confidence 95. -/
theorem C3_fallback_amended_witness :
    ("abc" : String) ≠ "" ∧ ("abc" : String).length ≤ 10 ∧
      recognitionUnusable (some ⟨"q", 50, false⟩) = true ∧
      extractFromBoundingBox "abc" (some ⟨"q", 50, false⟩) =
        ⟨"abc", .pdf, 95, detectLatex "abc"⟩ :=
  ⟨by decide, by decide, by decide,
    C3_fallback_amended "abc" (some ⟨"q", 50, false⟩) (by decide) (by decide) (by decide)⟩

/-- C4 counterexample: with structured text "abc" non-empty and an empty
recognized text at confidence 70, the outcome text is the EMPTY
recognized text with method recognized — not the non-empty structured
source as the claim states. -/
theorem C4_single_source_counterexample :
    (extractFromBoundingBox "abc" (some ⟨"", 70, false⟩)).text ≠ "abc" ∧
      (extractFromBoundingBox "abc" (some ⟨"", 70, false⟩)).method = .ocr := by
  decide

/-- C4 amended: when the recognition confidence exceeds 60 and not both
sources are non-empty (structured length at most 10), the outcome is
always the recognized result — its text, method recognized, its
confidence — even when the recognized text is empty and the structured
text is not. -/
theorem C4_single_source_amended (p : String) (r : OCRResult)
    (hlen : p.length ≤ 10) (hc : 60 < r.confidence)
    (h : p = "" ∨ r.text = "") :
    extractFromBoundingBox p (some r) = ⟨r.text, .ocr, r.confidence, r.hasLatex⟩ := by
  have hne : ¬(0 < p.length ∧ 0 < r.text.length) := by
    rintro ⟨hl1, hl2⟩
    cases h with
    | inl he => rw [he] at hl1; simp [String.length] at hl1
    | inr he => rw [he] at hl2; simp [String.length] at hl2
  unfold extractFromBoundingBox
  rw [if_neg (fun hco => by omega)]
  dsimp only
  rw [if_pos hc, if_neg hne]

/-- C4 witness: empty structured text with recognized "hello" at
confidence 80 yields the recognized outcome. -/
theorem C4_single_source_amended_witness :
    ("" : String).length ≤ 10 ∧ (60 : ℚ) < 80 ∧
      (("" : String) = "" ∨ ("hello" : String) = "") ∧
      extractFromBoundingBox "" (some ⟨"hello", 80, false⟩) =
        ⟨"hello", .ocr, 80, false⟩ :=
  ⟨by decide, by norm_num, Or.inl rfl,
    C4_single_source_amended "" ⟨"hello", 80, false⟩ (by decide) (by norm_num) (Or.inl rfl)⟩

/-- C5: recognition failure is recovered, never propagated.  The wrapper
returns text "" with confidence 0 when the underlying recognition call
throws, and composing with empty structured text the extraction outcome
is the Unable-to-extract placeholder with method recognized and
confidence 0. -/
theorem C5_recognition_failure :
    extractTextFromCanvas none = ⟨"", 0, false⟩ ∧
      extractFromBoundingBox "" (some (extractTextFromCanvas none)) =
        ⟨"Unable to extract text", .ocr, 0, false⟩ :=
  ⟨rfl, rfl⟩

/-- C6: CoordinateMapper formula.  For every region and scale s > 0 with
viewport height H·s, the mapped native region is exactly
(x/s, (H·s − y − height)/s, width/s, height/s), and a region anchored at
raster y = 0 maps to native y = H − height/s. -/
theorem C6_coordinate_mapper (bbox : Bbox) (pageHeightNative scale : ℚ)
    (hs : 0 < scale) :
    toPdfBbox bbox (pageHeightNative * scale) scale =
      ⟨bbox.x / scale, (pageHeightNative * scale - bbox.y - bbox.height) / scale,
        bbox.width / scale, bbox.height / scale⟩ ∧
    (bbox.y = 0 →
      (toPdfBbox bbox (pageHeightNative * scale) scale).y =
        pageHeightNative - bbox.height / scale) := by
  refine ⟨rfl, fun h0 => ?_⟩
  have hne : scale ≠ 0 := ne_of_gt hs
  simp only [toPdfBbox, h0]
  field_simp

/-- C6 witness: region 4×6 at raster origin on a height-10 page rendered
at scale 2. -/
theorem C6_coordinate_mapper_witness : (0 : ℚ) < 2 ∧
    (toPdfBbox ⟨1, 0, 4, 6⟩ (10 * 2) 2 =
      ⟨1 / 2, (10 * 2 - 0 - 6) / 2, 4 / 2, 6 / 2⟩ ∧
    ((1 : ℚ) = 1 → (toPdfBbox ⟨1, 0, 4, 6⟩ (10 * 2) 2).y = 10 - 6 / 2)) := by
  have h := C6_coordinate_mapper ⟨1, 0, 4, 6⟩ 10 2 (by norm_num)
  exact ⟨by norm_num, h.1, fun _ => h.2 rfl⟩

/-- C7 counterexample: a single in-region fragment whose content starts
with a space.  The code trims BOTH ends (String.prototype.trim), so the
result is "a", while the claim's description (single-space join with
only trailing whitespace trimmed) yields " a". -/
theorem C7_probe_counterexample :
    extractTextFromBoundingBox [⟨" a", some (0, 0)⟩] ⟨0, 0, 1, 1⟩ 1 1 ≠
      probeClaimed [⟨" a", some (0, 0)⟩] ⟨0, 0, 1, 1⟩ 1 1 := by
  have h1 : extractTextFromBoundingBox [⟨" a", some (0, 0)⟩] ⟨0, 0, 1, 1⟩ 1 1 = "a" := by
    unfold extractTextFromBoundingBox
    rw [List.foldl_cons, if_pos inBbox_unit_example, List.foldl_nil]
    decide
  have h2 : probeClaimed [⟨" a", some (0, 0)⟩] ⟨0, 0, 1, 1⟩ 1 1 = " a" := by
    unfold probeClaimed
    rw [List.filter_cons, if_pos inBbox_unit_example]
    decide
  rw [h1, h2]
  decide

/-- C7 amended: the probe result is the space-separated join, in
original order, of exactly those fragments whose anchor lies inside the
mapped region (all four bounds inclusive, anchor-only membership),
trimmed of BOTH leading and trailing whitespace. -/
theorem C7_probe_amended (items : List TextItem) (bbox : Bbox)
    (viewportHeight scale : ℚ) :
    extractTextFromBoundingBox items bbox viewportHeight scale =
      ⟨jsTrimChars (joinSp
        ((items.filter (fun it => inBbox (toPdfBbox bbox viewportHeight scale) it)).map
          (fun it => it.str.data)))⟩ := by
  unfold extractTextFromBoundingBox
  rw [foldl_sep, List.nil_append]
  congr 1
  have hmm : (items.filter (fun it => inBbox (toPdfBbox bbox viewportHeight scale) it)).map
      (fun it => it.str.data ++ [' ']) =
      ((items.filter (fun it => inBbox (toPdfBbox bbox viewportHeight scale) it)).map
        (fun it => it.str.data)).map (fun s => s ++ [' ']) := by
    rw [List.map_map]
    rfl
  rw [hmm]
  cases hL : (items.filter (fun it => inBbox (toPdfBbox bbox viewportHeight scale) it)).map
      (fun it => it.str.data) with
  | nil => simp [joinSp]
  | cons s rest =>
    rw [flatten_sep_eq_joinSp _ (by simp), jsTrimChars_append_space]

/-- C7 witness: the amended probe equation evaluated at a two-fragment
list, one fragment inside the region and one outside. -/
theorem C7_probe_amended_witness :
    extractTextFromBoundingBox [⟨"q1", some (1, 6)⟩, ⟨"out", some (99, 99)⟩] ⟨0, 0, 10, 10⟩ 20 2 =
      ⟨jsTrimChars (joinSp
        (([⟨"q1", some (1, 6)⟩, ⟨"out", some (99, 99)⟩].filter
          (fun it => inBbox (toPdfBbox ⟨0, 0, 10, 10⟩ 20 2) it)).map
          (fun it => it.str.data)))⟩ :=
  C7_probe_amended [⟨"q1", some (1, 6)⟩, ⟨"out", some (99, 99)⟩] ⟨0, 0, 10, 10⟩ 20 2

/-- C8: cleanup is claimed to perform only the five listed
normalizations, making "105" and "5. B" fixed points.  Evaluating the
code at these inputs shows the additional unconditional 0→O and 5→S
substitutions of ocr-utils.ts lines 75-76 firing: cleanup("105") = "1OS"
and cleanup("5. B") = "S. B". -/
theorem C8_cleanup_divergence :
    cleanOCRText "105" = "1OS" ∧ cleanOCRText "5. B" = "S. B" :=
  ⟨rfl, rfl⟩

/-- C9 counterexample: cleanup is not idempotent.  cleanup("a _ b") is
"a   b" (the artifact collapse runs after whitespace collapse and leaves
adjacent spaces), and cleaning again collapses them to "a b". -/
theorem C9_idempotence_counterexample :
    cleanOCRText (cleanOCRText "a _ b") ≠ cleanOCRText "a _ b" := by
  decide

/-- C9 amended: cleanup is idempotent on every string containing no
digit, right parenthesis, dollar, backslash, pipe or underscore — the
characters on which the rewriting steps (numbering fix, lettering fix,
pipe and artifact collapse, 0→O / 5→S substitution, math-delimiter
spacing) can act.  On such strings cleanup reduces to whitespace
collapse plus trim, which is idempotent. -/
theorem C9_idempotence_amended (s : String) (h : s.data.all okC = true) :
    cleanOCRText (cleanOCRText s) = cleanOCRText s := by
  have hmem : ∀ c ∈ s.data, okC c = true := fun c hc => List.all_eq_true.mp h c hc
  have hA : cleanChars s.data = jsTrimChars (colGo false s.data) :=
    cleanChars_restricted _ hmem
  have htok : ∀ c ∈ jsTrimChars (colGo false s.data), okC c = true := by
    intro c hc
    have h1 := jsTrim_mem _ c hc
    rcases colGo_mem _ false c h1 with h2 | h2
    · subst h2; decide
    · exact hmem c h2
  have hwsn : wsNormal (jsTrimChars (colGo false s.data)) :=
    wsNormal_jsTrim _ (colGo_wsNormal s.data)
  have hB : cleanChars (jsTrimChars (colGo false s.data)) =
      jsTrimChars (colGo false s.data) := by
    rw [cleanChars_restricted _ htok, colGo_id _ hwsn]
    exact trim_id _ (jsTrim_head _) (jsTrim_last _)
  show (⟨cleanChars (cleanChars s.data)⟩ : String) = ⟨cleanChars s.data⟩
  rw [hA, hB]

/-- C9 witness: "hello  world" avoids all trigger characters, and
cleaning it twice equals cleaning it once. -/
theorem C9_idempotence_amended_witness :
    ("hello  world" : String).data.all okC = true ∧
      cleanOCRText (cleanOCRText "hello  world") = cleanOCRText "hello  world" :=
  ⟨by decide, C9_idempotence_amended "hello  world" (by decide)⟩

/-- C10: the math detector returns true for every text containing one of
sin, cos, tan, log, ln, exp, lim, max, min as a standalone word
(case-insensitively, delimited by word boundaries); in particular
"choose the max value" is tagged as math although none of the other six
trigger patterns (inline dollars, backslash commands, caret or
underscore markers, Unicode math symbols, Greek letters) matches it. -/
theorem C10_func_word_detection :
    (∀ pre mid post w : List Char, w ∈ funcWords →
      mid.map jsToLower = w →
      pre.getLast?.all nonWordC = true →
      post.head?.all nonWordC = true →
      detectMathContent ⟨pre ++ mid ++ post⟩ = true) ∧
    detectMathContent "choose the max value" = true ∧
    anyTail dollarPairAt "choose the max value".data = false ∧
    anyTail bsCmdAt "choose the max value".data = false ∧
    anyTail caretAt "choose the max value".data = false ∧
    anyTail underscoreAt "choose the max value".data = false ∧
    "choose the max value".data.any (fun c => mathSymbolChars.contains c) = false ∧
    "choose the max value".data.any (fun c => greekChars.contains c) = false := by
  constructor
  · intro pre mid post w hw hmap hpre hpost
    have hfw : funcWordScan (pre ++ mid ++ post) = true := by
      unfold funcWordScan
      rw [List.append_assoc]
      exact funcGo_complete pre false mid post w hw hmap (fun _ => rfl)
        (fun c hc => by
          rw [hc] at hpre
          simpa [Option.all, nonWordC] using hpre)
        hpost
    unfold detectMathContent
    rw [show (⟨pre ++ mid ++ post⟩ : String).data = pre ++ mid ++ post from rfl, hfw]
    simp
  · refine ⟨by decide, by decide, by decide, by decide, by decide, by decide, by decide⟩

/-- C10 witness: "choose the " ++ "max" ++ " value" satisfies the word
boundary side conditions and is detected as math. -/
theorem C10_func_word_detection_witness :
    (['m', 'a', 'x'] ∈ funcWords) ∧
      ("max" : String).data.map jsToLower = ['m', 'a', 'x'] ∧
      ("choose the " : String).data.getLast?.all nonWordC = true ∧
      (" value" : String).data.head?.all nonWordC = true ∧
      detectMathContent ⟨("choose the " : String).data ++ ("max" : String).data ++
        (" value" : String).data⟩ = true :=
  ⟨by decide, by decide, by decide, by decide,
    C10_func_word_detection.1 ("choose the " : String).data ("max" : String).data
      (" value" : String).data ['m', 'a', 'x'] (by decide) (by decide) (by decide) (by decide)⟩

end MCQApp
